import Mathlib

/-!
Shallow embedding of `src/main.rs` of fastx-statistics-rs.

Bytes are modelled as `Nat` (only equality tests occur in the source, so the
representation is immaterial); `b'\n' = 10`, `b'N' = 78`, `b'n' = 110`,
`b'A' = 65`, `b'T' = 84`.  `usize` is 64-bit; panics (`unwrap` on `None`,
`unreachable!()`) are modelled by `Option` with `none` for the panic.
-/

/-- `let is_n = |b| b == b'n' || b == b'N';` from `SequenceStatistics::new`. -/
def is_n (b : Nat) : Bool := b == 110 || b == 78

/-- The four per-sequence statistics (struct `SequenceStatistics`). -/
structure SequenceStatistics where
  len : Nat
  hoco_len : Nat
  len_without_ns : Nat
  hoco_len_without_ns : Nat
deriving DecidableEq

/-- The mutable locals of the loop in `SequenceStatistics::new`. -/
structure ExtractState where
  len : Nat
  hoco_len : Nat
  last_byte : Nat
  ns : Nat
  hoco_ns : Nat
deriving DecidableEq

/-- One iteration of `for byte in sequence.iter().skip(1).copied()` in
`SequenceStatistics::new`: skip `b'\n'`, else bump `len` (and `ns` when the
byte is masked), and on exact inequality with `last_byte` start a new run. -/
def extract_step (s : ExtractState) (byte : Nat) : ExtractState :=
  if byte == 10 then s
  else
    let len := s.len + 1
    let ns := if is_n byte then s.ns + 1 else s.ns
    if byte != s.last_byte then
      { len := len, ns := ns, last_byte := byte,
        hoco_len := s.hoco_len + 1,
        hoco_ns := if is_n byte then s.hoco_ns + 1 else s.hoco_ns }
    else
      { s with len := len, ns := ns }

/-- `SequenceStatistics::new`: empty sequence gives all zeroes; otherwise the
first byte (taken unconditionally, even when it is a line break) seeds the
state and the loop folds over the remaining bytes.  The final subtractions
`len - ns` and `hoco_len - hoco_ns` are the Rust `usize` subtractions. -/
def SequenceStatistics.new (sequence : List Nat) : SequenceStatistics :=
  match sequence with
  | [] => { len := 0, hoco_len := 0, len_without_ns := 0, hoco_len_without_ns := 0 }
  | first :: rest =>
    let ns0 : Nat := if is_n first then 1 else 0
    let final := rest.foldl extract_step
      { len := 1, hoco_len := 1, last_byte := first, ns := ns0, hoco_ns := ns0 }
    { len := final.len, hoco_len := final.hoco_len,
      len_without_ns := final.len - final.ns,
      hoco_len_without_ns := final.hoco_len - final.hoco_ns }

/-- `usize::MAX` for the 64-bit targets the program is built for. -/
def usize_max : Nat := 2 ^ 64 - 1

/-- `usize::checked_mul`: `none` models the overflow case. -/
def checked_mul (a b : Nat) : Option Nat :=
  if a * b ≤ usize_max then some (a * b) else none

/-- The loop of `nx`: `sum` is the running accumulator (starting at 0);
the element is returned the moment the running sum reaches `required`;
`none` models falling through to `unreachable!()`. -/
def nx_scan (required : Nat) : List Nat → Nat → Option Nat
  | [], _ => none
  | len :: rest, sum => if required ≤ sum + len then some len else nx_scan required rest (sum + len)

/-- `fn nx(lengths, sum, percentile)`: compute the coverage threshold from the
stated sum and scan the lengths. -/
def nx (lengths : List Nat) (sum : Nat) (percentile : Nat → Nat) : Option Nat :=
  nx_scan (percentile sum) lengths 0

/-- The N50 closure `|l| l / 2` of `print_nx`. -/
def n50_required (l : Nat) : Nat := l / 2

/-- The N75 closure `|l| l.checked_mul(3).unwrap() / 4` of `print_nx`;
`none` models the `unwrap` panic on overflow. -/
def n75_required (l : Nat) : Option Nat := (checked_mul l 3).map (fun m => m / 4)

/-- The additional-percentile closure
`|l| ((l as u128) * u128::from(p) / 100) as usize` of `print_nx`:
the multiplication and division happen in `u128` (which cannot wrap, since
`l < 2^64` and `p < 2^8`), and the `as usize` cast truncates modulo `2^64`. -/
def additional_required (l p : Nat) : Nat := l * p / 100 % 2 ^ 64

/-- One output line of `print_nx`, abstracting the text to field identity. -/
inductive ReportLine where
  | totalLength : Nat → ReportLine
  | nxLine : Nat → Option Nat → ReportLine
  | maxLen : Option Nat → ReportLine
  | minLen : Option Nat → ReportLine
deriving DecidableEq

/-- `fn print_nx`, as the ordered list of lines it prints: total length,
N50, N75, one line per additional percentile in the order supplied, then
max and min length (`first().unwrap()` / `last().unwrap()` modelled by
`head?` / `getLast?`). -/
def print_nx (sorted_sequence_lengths : List Nat) (length : Nat)
    (additional_percentiles : List Nat) : List ReportLine :=
  ReportLine.totalLength length ::
  ReportLine.nxLine 50 (nx sorted_sequence_lengths length n50_required) ::
  ReportLine.nxLine 75 ((n75_required length).bind
    (fun required => nx_scan required sorted_sequence_lengths 0)) ::
  (additional_percentiles.map (fun p =>
    ReportLine.nxLine p (nx sorted_sequence_lengths length (fun l => additional_required l p))) ++
  [ReportLine.maxLen sorted_sequence_lengths.head?,
   ReportLine.minLen sorted_sequence_lengths.getLast?])

/-- Recognise the Nx lines of a report. -/
def isNxLine : ReportLine → Bool
  | ReportLine.nxLine _ _ => true
  | _ => false

/-- The percentile of each Nx line of a report, in printing order. -/
def nxLinePercentiles (lines : List ReportLine) : List Nat :=
  lines.filterMap (fun line =>
    match line with
    | ReportLine.nxLine p _ => some p
    | _ => none)

/-- The record filter of the loop in `basic_statistics`: a record survives
when `filter_ids` does not contain its id. -/
def surviving (records : List (String × List Nat)) (filter_ids : List String) :
    List (String × List Nat) :=
  records.filter (fun record => !(filter_ids.contains record.1))

/-- The `sequence_lengths` vector of `basic_statistics` after the record
loop: one `len` pushed per surviving record, in input order. -/
def sequence_lengths (records : List (String × List Nat)) (filter_ids : List String) :
    List Nat :=
  (surviving records filter_ids).map (fun record => (SequenceStatistics.new record.2).len)

/-- The `sequence_hoco_lengths` vector of `basic_statistics`. -/
def sequence_hoco_lengths (records : List (String × List Nat)) (filter_ids : List String) :
    List Nat :=
  (surviving records filter_ids).map (fun record => (SequenceStatistics.new record.2).hoco_len)

/-- The `sequence_lengths_without_ns` vector of `basic_statistics`. -/
def sequence_lengths_without_ns (records : List (String × List Nat))
    (filter_ids : List String) : List Nat :=
  (surviving records filter_ids).map
    (fun record => (SequenceStatistics.new record.2).len_without_ns)

/-- The `sequence_hoco_lengths_without_ns` vector of `basic_statistics`. -/
def sequence_hoco_lengths_without_ns (records : List (String × List Nat))
    (filter_ids : List String) : List Nat :=
  (surviving records filter_ids).map
    (fun record => (SequenceStatistics.new record.2).hoco_len_without_ns)

/-- `sort_unstable_by(|a, b| b.cmp(a))`: sort descending.  On `Nat` lists any
sorting algorithm produces the same list, so insertion sort models the
source's unstable sort exactly. -/
def sort_descending (l : List Nat) : List Nat :=
  List.insertionSort (fun a b => b ≤ a) l

/-- The `ns = length - length_without_ns` computation of
`print_sequence_statistics`: both sums are taken over the freshly sorted
vectors, and the subtraction is the Rust `usize` subtraction. -/
def report_ns (sequence_lengths sequence_lengths_without_ns : List Nat) : Nat :=
  (sort_descending sequence_lengths).sum - (sort_descending sequence_lengths_without_ns).sum

/-- The invariants maintained by the loop state of `SequenceStatistics::new`. -/
def ExtractInv (s : ExtractState) : Prop :=
  s.hoco_len ≤ s.len ∧ s.ns ≤ s.len ∧ s.hoco_ns ≤ s.hoco_len ∧ 1 ≤ s.len

lemma extract_step_inv (s : ExtractState) (b : Nat) (h : ExtractInv s) :
    ExtractInv (extract_step s b) := by
  obtain ⟨h1, h2, h3, h4⟩ := h
  unfold ExtractInv extract_step
  split_ifs <;> simp_all <;> omega

lemma foldl_extract_inv (l : List Nat) (s : ExtractState) (h : ExtractInv s) :
    ExtractInv (l.foldl extract_step s) := by
  induction l generalizing s with
  | nil => exact h
  | cons b rest ih => exact ih _ (extract_step_inv s b h)

lemma extract_step_ns (s : ExtractState) (b : Nat) :
    (extract_step s b).ns = s.ns + (if is_n b then 1 else 0) := by
  unfold extract_step
  split_ifs <;> simp_all [is_n]

lemma foldl_extract_ns (l : List Nat) (s : ExtractState) :
    (l.foldl extract_step s).ns = s.ns + l.countP is_n := by
  induction l generalizing s with
  | nil => simp
  | cons b rest ih =>
    simp only [List.foldl_cons, ih, extract_step_ns, List.countP_cons]
    by_cases h : is_n b
    · simp [h]
      omega
    · simp [h]

lemma new_inv (sequence : List Nat) :
    (SequenceStatistics.new sequence).hoco_len ≤ (SequenceStatistics.new sequence).len ∧
    (SequenceStatistics.new sequence).len_without_ns ≤ (SequenceStatistics.new sequence).len ∧
    (SequenceStatistics.new sequence).hoco_len_without_ns ≤
      (SequenceStatistics.new sequence).hoco_len ∧
    (sequence ≠ [] → 1 ≤ (SequenceStatistics.new sequence).len) := by
  cases sequence with
  | nil => simp [SequenceStatistics.new]
  | cons first rest =>
    have hinv : ExtractInv (rest.foldl extract_step
        { len := 1, hoco_len := 1, last_byte := first,
          ns := if is_n first then 1 else 0, hoco_ns := if is_n first then 1 else 0 }) := by
      apply foldl_extract_inv
      unfold ExtractInv
      split_ifs <;> simp
    obtain ⟨h1, h2, h3, h4⟩ := hinv
    simp only [SequenceStatistics.new]
    refine ⟨h1, ?_, ?_, fun _ => h4⟩ <;> omega

lemma new_ns_spec (sequence : List Nat) :
    (SequenceStatistics.new sequence).len_without_ns ≤ (SequenceStatistics.new sequence).len ∧
    (SequenceStatistics.new sequence).len - (SequenceStatistics.new sequence).len_without_ns =
      sequence.countP is_n := by
  cases sequence with
  | nil => simp [SequenceStatistics.new]
  | cons first rest =>
    simp only [SequenceStatistics.new, List.countP_cons]
    by_cases h : is_n first
    · simp only [h, if_true]
      have hinv := foldl_extract_inv rest ⟨1, 1, first, 1, 1⟩ (by unfold ExtractInv; simp)
      have hns : (rest.foldl extract_step ⟨1, 1, first, 1, 1⟩).ns = 1 + rest.countP is_n := by
        simpa using foldl_extract_ns rest ⟨1, 1, first, 1, 1⟩
      obtain ⟨h1, h2, h3, h4⟩ := hinv
      constructor <;> omega
    · simp only [h, if_false, Bool.false_eq_true]
      have hinv := foldl_extract_inv rest ⟨1, 1, first, 0, 0⟩ (by unfold ExtractInv; simp)
      have hns : (rest.foldl extract_step ⟨1, 1, first, 0, 0⟩).ns = rest.countP is_n := by
        simpa using foldl_extract_ns rest ⟨1, 1, first, 0, 0⟩
      obtain ⟨h1, h2, h3, h4⟩ := hinv
      constructor <;> omega

example : SequenceStatistics.new [65, 65, 65, 78, 78, 78, 84, 84] =
    { len := 8, hoco_len := 3, len_without_ns := 5, hoco_len_without_ns := 2 } := by decide

example : SequenceStatistics.new [78, 110] =
    { len := 2, hoco_len := 2, len_without_ns := 0, hoco_len_without_ns := 0 } := by decide

example : SequenceStatistics.new [10, 65] =
    { len := 2, hoco_len := 2, len_without_ns := 2, hoco_len_without_ns := 2 } := by decide

example : nx [10, 10, 10, 10, 10] 50 n50_required = some 10 := by decide

example : (n75_required 50).bind (fun r => nx_scan r [10, 10, 10, 10, 10] 0) = some 10 := by
  decide

example : n75_required 50 = some 37 := by decide

example : nx [10] 10 (fun l => additional_required l 150) = none := by decide

example : sort_descending [1, 3, 2] = [3, 2, 1] := by decide

example : report_ns [5, 3] [4, 1] = 3 := by decide

lemma nx_scan_spec (required : Nat) (lengths : List Nat) (acc i : Nat)
    (hi : i < lengths.length)
    (hreach : required ≤ acc + (lengths.take (i + 1)).sum)
    (hmin : ∀ j < i, acc + (lengths.take (j + 1)).sum < required) :
    nx_scan required lengths acc = some (lengths.get ⟨i, hi⟩) := by
  induction lengths generalizing acc i with
  | nil => simp at hi
  | cons l rest ih =>
    cases i with
    | zero =>
      simp only [List.take_succ_cons, List.take_zero, List.sum_cons, List.sum_nil] at hreach
      unfold nx_scan
      rw [if_pos (by omega)]
      rfl
    | succ i' =>
      have h0 := hmin 0 (Nat.succ_pos i')
      simp only [List.take_succ_cons, List.take_zero, List.sum_cons, List.sum_nil] at h0
      unfold nx_scan
      rw [if_neg (by omega)]
      have hi' : i' < rest.length := by
        simp only [List.length_cons] at hi
        omega
      have hget : (l :: rest).get ⟨i' + 1, hi⟩ = rest.get ⟨i', hi'⟩ := rfl
      rw [hget]
      apply ih
      · simp only [List.take_succ_cons, List.sum_cons] at hreach
        omega
      · intro j hj
        have hj' := hmin (j + 1) (by omega)
        simp only [List.take_succ_cons, List.sum_cons] at hj'
        omega

lemma nx_scan_isSome (required : Nat) (lengths : List Nat) (acc : Nat)
    (hne : lengths ≠ []) (h : required ≤ acc + lengths.sum) :
    (nx_scan required lengths acc).isSome = true := by
  induction lengths generalizing acc with
  | nil => exact absurd rfl hne
  | cons l rest ih =>
    unfold nx_scan
    by_cases hc : required ≤ acc + l
    · rw [if_pos hc]
      rfl
    · rw [if_neg hc]
      cases rest with
      | nil =>
        simp only [List.sum_cons, List.sum_nil] at h
        omega
      | cons r t =>
        apply ih (acc + l) (by simp)
        simp only [List.sum_cons] at h
        simp only [List.sum_cons]
        omega

/-- C1: for every non-empty distribution sorted non-increasingly and every
threshold function, `nx` returns the element at the least index whose
cumulative running sum (from the largest element downward) first reaches or
exceeds the required covered bases; and on `[10, 10, 10, 10, 10]` with sum 50
both the N50 path (threshold 25) and the N75 path (threshold 37) of
`print_nx` return 10. -/
theorem nx_returns_first_covering_length :
    (∀ (lengths : List Nat) (sum : Nat) (percentile : Nat → Nat) (i : Nat)
        (hi : i < lengths.length),
      lengths ≠ [] →
      List.Chain' (fun a b => b ≤ a) lengths →
      percentile sum ≤ (lengths.take (i + 1)).sum →
      (∀ j < i, (lengths.take (j + 1)).sum < percentile sum) →
      nx lengths sum percentile = some (lengths.get ⟨i, hi⟩)) ∧
    n50_required 50 = 25 ∧
    nx [10, 10, 10, 10, 10] 50 n50_required = some 10 ∧
    n75_required 50 = some 37 ∧
    (n75_required 50).bind (fun required => nx_scan required [10, 10, 10, 10, 10] 0) =
      some 10 := by
  refine ⟨?_, by decide, by decide, by decide, by decide⟩
  intro lengths sum percentile i hi _ _ hreach hmin
  exact nx_scan_spec (percentile sum) lengths 0 i hi (by simpa using hreach)
    (by simpa using hmin)

/-- Witness for C1: the general statement applied to `[10, 10, 10, 10, 10]`
with the N50 threshold function, reaching the threshold at index 2. -/
theorem nx_returns_first_covering_length_witness :
    ([10, 10, 10, 10, 10] : List Nat) ≠ [] ∧
    List.Chain' (fun a b : Nat => b ≤ a) [10, 10, 10, 10, 10] ∧
    n50_required 50 ≤ (([10, 10, 10, 10, 10] : List Nat).take 3).sum ∧
    (∀ j < 2, (([10, 10, 10, 10, 10] : List Nat).take (j + 1)).sum < n50_required 50) ∧
    nx [10, 10, 10, 10, 10] 50 n50_required =
      some (([10, 10, 10, 10, 10] : List Nat).get ⟨2, by decide⟩) :=
  ⟨by decide, by simp, by decide, by decide,
    nx_returns_first_covering_length.1 [10, 10, 10, 10, 10] 50 n50_required 2 (by decide)
      (by decide) (by simp) (by decide) (by decide)⟩

/-- C2: when the stated sum equals the sum of the elements and the coverage
threshold does not exceed it, the scan in `nx` returns before exhausting the
collection, so the `unreachable!()` branch (modelled by `none`) is never
executed. -/
theorem nx_never_unreachable (lengths : List Nat) (sum : Nat) (percentile : Nat → Nat)
    (hne : lengths ≠ []) (hsum : sum = lengths.sum) (hth : percentile sum ≤ sum) :
    (nx lengths sum percentile).isSome = true := by
  unfold nx
  apply nx_scan_isSome (percentile sum) lengths 0 hne
  omega

/-- Witness for C2 at the distribution `[3, 2]` with its true sum 5 and the
identity threshold function (full coverage). -/
theorem nx_never_unreachable_witness :
    ([3, 2] : List Nat) ≠ [] ∧ (5 : Nat) = ([3, 2] : List Nat).sum ∧ id 5 ≤ 5 ∧
    (nx [3, 2] 5 id).isSome = true :=
  ⟨by decide, by decide, by decide, nx_never_unreachable [3, 2] 5 id (by decide) (by decide)
    (by decide)⟩

/-- C3 fails on the code: the percentile 150, which lies outside `[0, 100]`
but inside `u8`, is not rejected anywhere; `print_nx` forwards it to the Nx
computation, whose threshold `150 * 10 / 100 = 15` exceeds the sum 10, so the
scan falls through to `unreachable!()` (the `none` in the printed line). -/
theorem percentile_above_100_reaches_nx :
    additional_required 10 150 = 15 ∧
    ReportLine.nxLine 150 none ∈ print_nx [10] 10 [150] := by
  constructor
  · decide
  · decide

/-- C4 fails on the code: for the sequence `"\nA"` the first byte is taken
unconditionally, so the leading line break is counted and `len = 2`, while
the count of non-line-break characters is 1. -/
theorem leading_line_break_is_counted :
    (SequenceStatistics.new [10, 65]).len = 2 ∧
    List.countP (fun b => !(b == 10)) [10, 65] = 1 := by
  decide

/-- C5: a run boundary is exact character inequality while masked counting
is case-insensitive: `"Nn"` yields two runs, both masked (`hoco_len = 2`,
`hoco_len_without_ns = 0`), and `"AAANNNTT"` yields `len = 8`,
`hoco_len = 3`, `len_without_ns = 5`, `hoco_len_without_ns = 2`. -/
theorem run_boundary_exact_masked_case_insensitive :
    SequenceStatistics.new [78, 110] =
      { len := 2, hoco_len := 2, len_without_ns := 0, hoco_len_without_ns := 0 } ∧
    SequenceStatistics.new [65, 65, 65, 78, 78, 78, 84, 84] =
      { len := 8, hoco_len := 3, len_without_ns := 5, hoco_len_without_ns := 2 } := by
  decide

/-- C6: for every input sequence the extracted statistics satisfy
`hoco_len ≤ len`, `len_without_ns ≤ len`, `hoco_len_without_ns ≤ hoco_len`,
and all four fields are 0 exactly when the sequence is empty. -/
theorem sequence_statistics_invariants (sequence : List Nat) :
    (SequenceStatistics.new sequence).hoco_len ≤ (SequenceStatistics.new sequence).len ∧
    (SequenceStatistics.new sequence).len_without_ns ≤ (SequenceStatistics.new sequence).len ∧
    (SequenceStatistics.new sequence).hoco_len_without_ns ≤
      (SequenceStatistics.new sequence).hoco_len ∧
    (((SequenceStatistics.new sequence).len = 0 ∧
      (SequenceStatistics.new sequence).hoco_len = 0 ∧
      (SequenceStatistics.new sequence).len_without_ns = 0 ∧
      (SequenceStatistics.new sequence).hoco_len_without_ns = 0) ↔ sequence = []) := by
  obtain ⟨h1, h2, h3, h4⟩ := new_inv sequence
  refine ⟨h1, h2, h3, ?_⟩
  constructor
  · intro hz
    by_contra hne
    have := h4 hne
    omega
  · intro hz
    subst hz
    simp [SequenceStatistics.new]

/-- C7 fails on the code at the fixed N75 point: at the representable sum
`usize::MAX` the computation `sum.checked_mul(3).unwrap()` overflows, so the
threshold panics (modelled by `none`) instead of yielding
`⌊sum * 75 / 100⌋`. -/
theorem n75_threshold_overflows_at_usize_max :
    n75_required usize_max = none := by
  decide

/-- C7 amended: the N50 threshold equals `⌊sum * 50 / 100⌋` for every `usize`
sum; the N75 threshold equals `⌊sum * 75 / 100⌋` whenever `3 * sum` still
fits in `usize` (otherwise `checked_mul(3).unwrap()` panics); and for every
additional percentile `p ≤ 100` the 128-bit computation never overflows, the
result fits back into `usize` untruncated and equals `⌊sum * p / 100⌋`. -/
theorem coverage_thresholds_amended :
    (∀ l : Nat, n50_required l = l * 50 / 100) ∧
    (∀ l : Nat, 3 * l ≤ usize_max → n75_required l = some (l * 75 / 100)) ∧
    (∀ l p : Nat, l ≤ usize_max → p ≤ 100 →
      additional_required l p = l * p / 100 ∧ l * p / 100 ≤ usize_max ∧
      l * p ≤ 2 ^ 128 - 1) := by
  refine ⟨fun l => ?_, fun l h3 => ?_, fun l p hl hp => ?_⟩
  · unfold n50_required
    omega
  · unfold n75_required checked_mul
    rw [if_pos (by omega)]
    have hq : l * 3 / 4 = l * 75 / 100 := by omega
    simp [hq]
  · have hdivle : l * p / 100 ≤ l := by
      have h1 : l * p ≤ l * 100 := Nat.mul_le_mul_left l hp
      have h2 : l * p / 100 ≤ l * 100 / 100 := Nat.div_le_div_right h1
      have h3 : l * 100 / 100 = l := by omega
      omega
    have hmul : l * p ≤ 2 ^ 128 - 1 := by
      have h1 : l * p ≤ l * 100 := Nat.mul_le_mul_left l hp
      have h2 : l * 100 ≤ usize_max * 100 := Nat.mul_le_mul_right 100 hl
      have h3 : usize_max * 100 ≤ 2 ^ 128 - 1 := by norm_num [usize_max]
      omega
    refine ⟨?_, by unfold usize_max at hl ⊢; omega, hmul⟩
    unfold additional_required
    have hlt : l * p / 100 < 2 ^ 64 := by
      unfold usize_max at hl
      omega
    exact Nat.mod_eq_of_lt hlt

/-- Witness for C7 amended at `sum = 8`, additional percentile 90. -/
theorem coverage_thresholds_amended_witness :
    3 * 8 ≤ usize_max ∧ (8 : Nat) ≤ usize_max ∧ (90 : Nat) ≤ 100 ∧
    n50_required 8 = 8 * 50 / 100 ∧
    n75_required 8 = some (8 * 75 / 100) ∧
    additional_required 8 90 = 8 * 90 / 100 :=
  ⟨by decide, by decide, by decide, coverage_thresholds_amended.1 8,
    coverage_thresholds_amended.2.1 8 (by decide),
    (coverage_thresholds_amended.2.2 8 90 (by decide) (by decide)).1⟩

/-- C8 fails on the code: with the additional percentile 25, the Nx lines of
`print_nx` carry the percentiles `[50, 75, 25]`, which is not ascending -
additional percentiles are printed after the fixed N50 and N75 in the order
the caller supplied them, not sorted. -/
theorem nx_lines_not_ascending :
    nxLinePercentiles (print_nx [10] 10 [25]) = [50, 75, 25] ∧
    ¬ List.Chain' (fun a b : Nat => a ≤ b) (nxLinePercentiles (print_nx [10] 10 [25])) := by
  refine ⟨by decide, ?_⟩
  rw [show nxLinePercentiles (print_nx [10] 10 [25]) = [50, 75, 25] from by decide]
  simp [List.chain'_cons]

/-- C8 amended: in each `print_nx` report the Nx lines appear contiguously
between the total-length line and the max-length and min-length lines, with
percentiles in the order `50, 75` followed by the additional percentiles in
the order supplied by the caller (ascending only if that list is ascending
and at least 75 throughout). -/
theorem nx_lines_between_total_and_extremes (sorted_sequence_lengths : List Nat)
    (length : Nat) (additional_percentiles : List Nat) :
    nxLinePercentiles (print_nx sorted_sequence_lengths length additional_percentiles) =
      50 :: 75 :: additional_percentiles ∧
    print_nx sorted_sequence_lengths length additional_percentiles =
      ReportLine.totalLength length ::
      ((print_nx sorted_sequence_lengths length additional_percentiles).filter isNxLine ++
        [ReportLine.maxLen sorted_sequence_lengths.head?,
         ReportLine.minLen sorted_sequence_lengths.getLast?]) := by
  constructor
  · simp only [nxLinePercentiles, print_nx, List.filterMap_cons, List.filterMap_append]
    simp [List.filterMap_map, Function.comp_def, List.filterMap_some]
  · simp only [print_nx, List.filter_cons, List.filter_append, isNxLine]
    simp [List.filter_map, Function.comp_def, isNxLine]

/-- C9: the four length vectors collected by the record loop of
`basic_statistics` all have as many elements as there are surviving records,
and when that count is positive each vector, once sorted, has a first and a
last element (so the `first().unwrap()` and `last().unwrap()` of `print_nx`
never panic). -/
theorem aggregated_lengths_aligned (records : List (String × List Nat))
    (filter_ids : List String) :
    (sequence_lengths records filter_ids).length = (surviving records filter_ids).length ∧
    (sequence_hoco_lengths records filter_ids).length =
      (surviving records filter_ids).length ∧
    (sequence_lengths_without_ns records filter_ids).length =
      (surviving records filter_ids).length ∧
    (sequence_hoco_lengths_without_ns records filter_ids).length =
      (surviving records filter_ids).length ∧
    (0 < (surviving records filter_ids).length →
      (sort_descending (sequence_lengths records filter_ids)).head?.isSome = true ∧
      (sort_descending (sequence_lengths records filter_ids)).getLast?.isSome = true ∧
      (sort_descending (sequence_hoco_lengths records filter_ids)).head?.isSome = true ∧
      (sort_descending (sequence_hoco_lengths records filter_ids)).getLast?.isSome = true ∧
      (sort_descending (sequence_lengths_without_ns records filter_ids)).head?.isSome
        = true ∧
      (sort_descending (sequence_lengths_without_ns records filter_ids)).getLast?.isSome
        = true ∧
      (sort_descending (sequence_hoco_lengths_without_ns records filter_ids)).head?.isSome
        = true ∧
      (sort_descending
        (sequence_hoco_lengths_without_ns records filter_ids)).getLast?.isSome = true) := by
  refine ⟨by simp [sequence_lengths], by simp [sequence_hoco_lengths],
    by simp [sequence_lengths_without_ns], by simp [sequence_hoco_lengths_without_ns],
    fun h => ?_⟩
  have key : ∀ l : List Nat, 0 < l.length →
      (sort_descending l).head?.isSome = true ∧
      (sort_descending l).getLast?.isSome = true := by
    intro l hl
    have hlen : (sort_descending l).length = l.length :=
      (List.perm_insertionSort _ l).length_eq
    have hne : sort_descending l ≠ [] := by
      intro hnil
      rw [hnil] at hlen
      simp at hlen
      omega
    constructor
    · cases hs : sort_descending l with
      | nil => exact absurd hs hne
      | cons a t => rfl
    · exact List.getLast?_isSome.mpr hne
  have k1 := key (sequence_lengths records filter_ids)
    (by simp only [sequence_lengths, List.length_map]; exact h)
  have k2 := key (sequence_hoco_lengths records filter_ids)
    (by simp only [sequence_hoco_lengths, List.length_map]; exact h)
  have k3 := key (sequence_lengths_without_ns records filter_ids)
    (by simp only [sequence_lengths_without_ns, List.length_map]; exact h)
  have k4 := key (sequence_hoco_lengths_without_ns records filter_ids)
    (by simp only [sequence_hoco_lengths_without_ns, List.length_map]; exact h)
  exact ⟨k1.1, k1.2, k2.1, k2.2, k3.1, k3.2, k4.1, k4.2⟩

/-- Witness for C9 on a single unfiltered record. -/
theorem aggregated_lengths_aligned_witness :
    0 < (surviving [("a", [65])] []).length ∧
    (sort_descending (sequence_lengths [("a", [65])] [])).head?.isSome = true ∧
    (sort_descending (sequence_hoco_lengths_without_ns [("a", [65])] [])).getLast?.isSome
      = true :=
  ⟨by decide,
    ((aggregated_lengths_aligned [("a", [65])] []).2.2.2.2 (by decide)).1,
    ((aggregated_lengths_aligned [("a", [65])] []).2.2.2.2 (by decide)).2.2.2.2.2.2.2⟩

lemma map_sum_sub {α : Type} (l : List α) (f g : α → Nat) (h : ∀ a ∈ l, g a ≤ f a) :
    (l.map g).sum ≤ (l.map f).sum ∧
    (l.map f).sum - (l.map g).sum = (l.map fun a => f a - g a).sum := by
  induction l with
  | nil => simp
  | cons a t ih =>
    have ha := h a (List.mem_cons_self a t)
    have iht := ih fun b hb => h b (List.mem_cons_of_mem a hb)
    simp only [List.map_cons, List.sum_cons]
    omega

lemma sort_descending_sum (l : List Nat) : (sort_descending l).sum = l.sum :=
  (List.perm_insertionSort _ l).sum_eq

/-- C10: the masked-position count printed by `print_sequence_statistics` is
the total length minus the total length without Ns; the subtraction never
underflows (each record's `len_without_ns` is at most its `len`) and the
result equals the total number of masked characters over all surviving
records. -/
theorem reported_ns_equals_masked_count (records : List (String × List Nat))
    (filter_ids : List String) :
    (sort_descending (sequence_lengths_without_ns records filter_ids)).sum ≤
      (sort_descending (sequence_lengths records filter_ids)).sum ∧
    report_ns (sequence_lengths records filter_ids)
        (sequence_lengths_without_ns records filter_ids) =
      ((surviving records filter_ids).map fun record => record.2.countP is_n).sum := by
  have hsub := map_sum_sub (surviving records filter_ids)
    (fun record => (SequenceStatistics.new record.2).len)
    (fun record => (SequenceStatistics.new record.2).len_without_ns)
    (fun record _ => (new_ns_spec record.2).1)
  have hcong : ((surviving records filter_ids).map fun record =>
        (SequenceStatistics.new record.2).len -
          (SequenceStatistics.new record.2).len_without_ns) =
      (surviving records filter_ids).map fun record => record.2.countP is_n :=
    List.map_congr_left fun record _ => (new_ns_spec record.2).2
  constructor
  · rw [sort_descending_sum, sort_descending_sum]
    unfold sequence_lengths sequence_lengths_without_ns
    exact hsub.1
  · unfold report_ns
    rw [sort_descending_sum, sort_descending_sum]
    unfold sequence_lengths sequence_lengths_without_ns
    rw [hsub.2, hcong]
